import Mathlib

/-!
Shallow embedding of the entry publication pipeline of `blog.py`: the slug
derivation and collision loop and the create/update logic of
`ComposeHandler.post`, together with the `Entry` data model. Machine strings
are Lean `String`s (lists of characters), datastore state is a list of
entries, and timestamps are abstract naturals.
-/

/-- One blog entry, mirroring the datastore model `Entry` in `blog.py`.
`key` models `str(entity.key())`, the url-safe encoding of the datastore key;
`markdown` is the rendered-HTML field of that name; `published`/`updated` are
the `auto_now_add`/`auto_now` timestamps as abstract naturals. -/
structure Entry where
  key : String
  author : String
  title : String
  slug : String
  body : String
  markdown : String
  published : Nat
  updated : Nat
deriving Repr, DecidableEq

/-- Python byte-string word character, the `\w` class used by
`re.sub(r"[^\w]+", " ", slug)` on line 132: `[A-Za-z0-9_]`. -/
def isWordChar (c : Char) : Bool :=
  (65 ≤ c.toNat && c.toNat ≤ 90) || (97 ≤ c.toNat && c.toNat ≤ 122) ||
    (48 ≤ c.toNat && c.toNat ≤ 57) || c.toNat == 95

/-- Python whitespace for byte strings (as consumed by `str.strip` and
`str.split`): space, tab, newline, vertical tab, form feed, carriage return. -/
def isSpacePy (c : Char) : Bool :=
  c.toNat == 32 || c.toNat == 9 || c.toNat == 10 || c.toNat == 11 ||
    c.toNat == 12 || c.toNat == 13

/-- ASCII lower-casing of one character, as Python `str.lower` does on byte
strings: `A`-`Z` shift down by 32, everything else is unchanged. -/
def lowerPy (c : Char) : Char :=
  if 65 ≤ c.toNat && c.toNat ≤ 90 then Char.ofNat (c.toNat + 32) else c

/-- The `.encode("ascii", "ignore")` step of line 130: keep only characters
with an ASCII code, dropping the rest. -/
def asciiIgnore (l : List Char) : List Char :=
  l.filter (fun c => c.toNat < 128)

/-- Replace every maximal run of non-word characters by a single space, the
effect of `re.sub(r"[^\w]+", " ", slug)` on line 132. The boolean flag records
whether the previous character was part of a non-word run (whose single
replacement space has already been emitted). -/
def subNonWordAux : Bool → List Char → List Char
  | _, [] => []
  | inRun, c :: cs =>
    if isWordChar c then c :: subNonWordAux false cs
    else if inRun then subNonWordAux true cs
    else ' ' :: subNonWordAux true cs

def subNonWord (l : List Char) : List Char :=
  subNonWordAux false l

/-- Python `str.strip()`: drop leading and trailing whitespace. -/
def stripPy (l : List Char) : List Char :=
  ((l.dropWhile isSpacePy).reverse.dropWhile isSpacePy).reverse

/-- Python `str.split()` with no separator: the maximal runs of non-whitespace
characters, in order. `acc` holds the current word, reversed. -/
def splitWsAux (acc : List Char) : List Char → List (List Char)
  | [] => if acc.isEmpty then [] else [acc.reverse]
  | c :: cs =>
    if isSpacePy c then
      if acc.isEmpty then splitWsAux [] cs else acc.reverse :: splitWsAux [] cs
    else splitWsAux (c :: acc) cs

def splitWs (l : List Char) : List (List Char) :=
  splitWsAux [] l

/-- Python `sep.join(words)` at the character-list level. -/
def joinSep (sep : List Char) : List (List Char) → List Char
  | [] => []
  | [w] => w
  | w :: ws => w ++ sep ++ joinSep sep ws

/-- Lines 130-133 of `blog.py`: NFKD-normalize the title, strip it to ASCII,
replace non-word runs by spaces, then lower-case, strip, split on whitespace
and join the words with hyphens. The NFKD normalization itself,
`unicodedata.normalize("NFKD", title)`, is the external Unicode library and is
passed in as the function `nfkd` on character lists. -/
def slugify (nfkd : List Char → List Char) (title : String) : String :=
  String.mk (joinSep ['-']
    (splitWs (stripPy (List.map lowerPy (subNonWord (asciiIgnore (nfkd title.data)))))))

/-- Line 134 of `blog.py`: `if not slug: slug = "entry"`. -/
def baseSlug (nfkd : List Char → List Char) (title : String) : String :=
  if slugify nfkd title = "" then "entry" else slugify nfkd title

/-- The datastore query `db.Query(Entry).filter("slug =", slug).get()` used as
the collision probe on line 136: first stored entry with the candidate slug. -/
def storeProbe (store : List Entry) (slug : String) : Option Entry :=
  store.find? (fun e => e.slug == slug)

/-- The lookup `Entry.get(key)` on line 124: first stored entry with the given
url-safe key string. -/
def findByKey (store : List Entry) (k : String) : Option Entry :=
  store.find? (fun e => e.key == k)

/-- The comparison `str(existing.key()) == key` on line 137. Comparing a
string against an absent (`None`) key is always false in Python. -/
def keyMatches (e : Entry) (key : Option String) : Bool :=
  match key with
  | none => false
  | some k => e.key == k

/-- The acceptance condition of the collision loop, line 137:
`not existing or str(existing.key()) == key` for the probe's result. -/
def accepts (store : List Entry) (key : Option String) (s : String) : Bool :=
  match storeProbe store s with
  | none => true
  | some e => keyMatches e key

/-- Longest slug length occurring in the store. The collision loop's
candidates strictly lengthen, so they eventually grow past every stored slug;
this bounds the search. -/
def maxSlugLen (store : List Entry) : Nat :=
  (store.map (fun e => e.slug.length)).foldr max 0

/-- Datastore operations performed by `ComposeHandler.post`: a read of an
entry by slug (the collision probe), a read by key (the edit lookup), and a
write (`entry.put()`). -/
inductive Op where
  | readSlug : String → Op
  | readKey : String → Op
  | write : Entry → Op
deriving Repr, DecidableEq

/-- Reads are every operation other than a write. -/
def isRead (op : Op) : Bool :=
  match op with
  | Op.write _ => false
  | _ => true

/-- Lines 135-139 of `blog.py`: the collision loop. Probes the store for the
candidate; accepts it when nothing is found or the found entry's key equals
the request's `key` argument, otherwise appends the literal `"-2"` and
retries. Returns the accepted slug together with the trace of datastore reads
performed, one `readSlug` per probe. -/
def slugLoopT (store : List Entry) (key : Option String) (slug : String) :
    String × List Op :=
  match h : storeProbe store slug with
  | none => (slug, [Op.readSlug slug])
  | some e =>
    if keyMatches e key then (slug, [Op.readSlug slug])
    else
      let r := slugLoopT store key (slug ++ "-2")
      (r.1, Op.readSlug slug :: r.2)
termination_by maxSlugLen store + 1 - slug.length
decreasing_by
  have he : e ∈ store := List.mem_of_find?_eq_some h
  have hsl : e.slug = slug := by simpa using List.find?_some h
  have hb : ∀ s : List Entry, e ∈ s → e.slug.length ≤ maxSlugLen s := by
    intro s
    induction s with
    | nil => intro hh; cases hh
    | cons x xs ih =>
      intro hh
      rcases List.mem_cons.mp hh with hh | hh
      · subst hh
        simp only [maxSlugLen, List.map_cons, List.foldr_cons]
        exact Nat.le_max_left _ _
      · simp only [maxSlugLen, List.map_cons, List.foldr_cons]
        exact Nat.le_trans (ih hh) (Nat.le_max_right _ _)
  have h1 : slug.length ≤ maxSlugLen store := hsl ▸ hb store he
  have h2 : (slug ++ "-2").length = slug.length + 2 := by
    rw [String.length_append]; rfl
  omega

/-- The slug the collision loop accepts. -/
def slugLoop (store : List Entry) (key : Option String) (slug : String) : String :=
  (slugLoopT store key slug).1

/-- Following the spec's description of the simplified collision loop: accept
the candidate exactly when the probe finds no entry, otherwise append the
literal `"-2"` and retry. Used to compare against `slugLoop` on the create
path, where no key is supplied. -/
def simpleLoop (store : List Entry) (slug : String) : String :=
  match h : storeProbe store slug with
  | none => slug
  | some e => simpleLoop store (slug ++ "-2")
termination_by maxSlugLen store + 1 - slug.length
decreasing_by
  have he : e ∈ store := List.mem_of_find?_eq_some h
  have hsl : e.slug = slug := by simpa using List.find?_some h
  have hb : ∀ s : List Entry, e ∈ s → e.slug.length ≤ maxSlugLen s := by
    intro s
    induction s with
    | nil => intro hh; cases hh
    | cons x xs ih =>
      intro hh
      rcases List.mem_cons.mp hh with hh | hh
      · subst hh
        simp only [maxSlugLen, List.map_cons, List.foldr_cons]
        exact Nat.le_max_left _ _
      · simp only [maxSlugLen, List.map_cons, List.foldr_cons]
        exact Nat.le_trans (ih hh) (Nat.le_max_right _ _)
  have h1 : slug.length ≤ maxSlugLen store := hsl ▸ hb store he
  have h2 : (slug ++ "-2").length = slug.length + 2 := by
    rw [String.length_append]; rfl
  omega

/-- The collision loop over an arbitrary probe function, run with bounded
fuel: `none` means the loop had not finished within `fuel` probes. -/
def slugLoopP (probe : String → Option Entry) (key : Option String) :
    Nat → String → Option String
  | 0, _ => none
  | fuel + 1, slug =>
    match probe slug with
    | none => some slug
    | some e =>
      if keyMatches e key then some slug
      else slugLoopP probe key fuel (slug ++ "-2")

/-- The candidate sequence of the collision loop: `appendTwos base n` is
`base` with `n` copies of the literal `"-2"` appended. -/
def appendTwos (base : String) : Nat → String
  | 0 => base
  | n + 1 => appendTwos (base ++ "-2") n

/-- Characters the claims allow in a generated slug: lower-case ASCII word
characters (`a`-`z`, `0`-`9`, `_`) and the hyphen. -/
def isLowerWordOrHyphen (c : Char) : Bool :=
  (97 ≤ c.toNat && c.toNat ≤ 122) || (48 ≤ c.toNat && c.toNat ≤ 57) ||
    c.toNat == 95 || c.toNat == 45

/-- Failure kinds of the publish operation. `invalidInput` models the
`HTTPError(400)` that tornado's `get_argument` raises for a missing required
argument, `notFound` the failure of the update path when `Entry.get(key)`
finds no entity (the subsequent attribute assignment on `None` faults). -/
inductive Err where
  | invalidInput : Err
  | notFound : Err
deriving Repr, DecidableEq

/-- Modelled from the spec: retrieval of a required request argument,
`self.get_argument(name)`. The request-parsing layer is the tornado framework,
not part of `blog.py`: 2009-era tornado discards blank argument values while
parsing the request and `get_argument` without a default raises
`HTTPError(400)` when the argument is absent, so an empty argument fails with
`InvalidInput`, per the spec's "fails with InvalidInput if title is empty". -/
def getArg (v : String) : Except Err String :=
  if v = "" then Except.error Err.invalidInput else Except.ok v

/-- The datastore write `entry.put()`: replace the stored entries carrying the
entry's key, or append the entry when its key is new. -/
def storePut (store : List Entry) (e : Entry) : List Entry :=
  if store.any (fun x => x.key == e.key) then
    store.map (fun x => if x.key == e.key then e else x)
  else store ++ [e]

/-- Lines 120-148 of `blog.py`, `ComposeHandler.post`, with its collaborators
made explicit: `md` is the external renderer `markdown.markdown`, `nfkd` the
external Unicode normalization, `author` the current user, `now` the put-time
timestamp that the `auto_now`/`auto_now_add` properties record, `freshKey` the
key the datastore assigns on a first save, `key`/`titleArg`/`markdownArg` the
request arguments (`key` is `None` when absent). Returns the outcome — the new
store and the written entry, or the failure — together with the trace of
datastore operations performed. -/
def postT (md : String → String) (nfkd : List Char → List Char)
    (author : String) (now : Nat) (store : List Entry) (freshKey : String)
    (key : Option String) (titleArg markdownArg : String) :
    Except Err (List Entry × Entry) × List Op :=
  match key with
  | some k =>
    match findByKey store k with
    | none => (Except.error Err.notFound, [Op.readKey k])
    | some e =>
      match getArg titleArg with
      | Except.error er => (Except.error er, [Op.readKey k])
      | Except.ok t =>
        match getArg markdownArg with
        | Except.error er => (Except.error er, [Op.readKey k])
        | Except.ok m =>
          let e' : Entry :=
            { e with title := t, body := m, markdown := md m, updated := now }
          (Except.ok (storePut store e', e'), [Op.readKey k, Op.write e'])
  | none =>
    match getArg titleArg with
    | Except.error er => (Except.error er, [])
    | Except.ok t =>
      let sl := slugLoopT store none (baseSlug nfkd t)
      match getArg markdownArg with
      | Except.error er => (Except.error er, sl.2)
      | Except.ok m =>
        let e : Entry :=
          { key := freshKey, author := author, title := t, slug := sl.1,
            body := m, markdown := md m, published := now, updated := now }
        (Except.ok (storePut store e, e), sl.2 ++ [Op.write e])

/-- The outcome of `ComposeHandler.post` without its operation trace. -/
def post (md : String → String) (nfkd : List Char → List Char)
    (author : String) (now : Nat) (store : List Entry) (freshKey : String)
    (key : Option String) (titleArg markdownArg : String) :
    Except Err (List Entry × Entry) :=
  (postT md nfkd author now store freshKey key titleArg markdownArg).1

/-- A sample stored entry used in concrete witnesses. -/
def e0 : Entry :=
  { key := "k1", author := "al", title := "Old title", slug := "old-title",
    body := "old body", markdown := "<p>old body</p>", published := 5, updated := 5 }

/-- The entry `e0` as rewritten by a successful update with title `"New"` and
body `"fresh"` at time 9, under the renderer that wraps its input in a
paragraph tag. -/
def e1 : Entry :=
  { key := "k1", author := "al", title := "New", slug := "old-title",
    body := "fresh", markdown := "<p>fresh</p>", published := 5, updated := 9 }

/-- A sample renderer standing in for `markdown.markdown` in witnesses. -/
def mdP (s : String) : String :=
  "<p>" ++ s ++ "</p>"

/-!
Theorems: first general lemmas about the embedded operations, then one
theorem per specification claim.
-/

theorem slugLen_le_maxSlugLen {store : List Entry} {e : Entry} (h : e ∈ store) :
    e.slug.length ≤ maxSlugLen store := by
  induction store with
  | nil => cases h
  | cons x xs ih =>
    rcases List.mem_cons.mp h with h | h
    · subst h
      simp only [maxSlugLen, List.map_cons, List.foldr_cons]
      exact Nat.le_max_left _ _
    · simp only [maxSlugLen, List.map_cons, List.foldr_cons]
      exact Nat.le_trans (ih h) (Nat.le_max_right _ _)

theorem storeProbe_some {store : List Entry} {slug : String} {e : Entry}
    (h : storeProbe store slug = some e) : e ∈ store ∧ e.slug = slug := by
  refine ⟨List.mem_of_find?_eq_some h, ?_⟩
  simpa using List.find?_some h

theorem append_two_length (slug : String) :
    (slug ++ "-2").length = slug.length + 2 := by
  rw [String.length_append]; rfl

theorem slugLoopT_accept {store : List Entry} {key : Option String} {slug : String}
    (h : accepts store key slug = true) :
    slugLoopT store key slug = (slug, [Op.readSlug slug]) := by
  unfold accepts at h
  rw [slugLoopT]
  split
  · rfl
  · rename_i e he
    rw [he] at h
    simp only [] at h
    rw [if_pos h]

theorem slugLoopT_step {store : List Entry} {key : Option String} {slug : String}
    {e : Entry} (hp : storeProbe store slug = some e)
    (hk : keyMatches e key = false) :
    slugLoopT store key slug =
      ((slugLoopT store key (slug ++ "-2")).1,
        Op.readSlug slug :: (slugLoopT store key (slug ++ "-2")).2) := by
  rw [slugLoopT]
  split
  · rename_i he
    rw [hp] at he
    cases he
  · rename_i e' he
    rw [hp] at he
    cases he
    rw [if_neg (by rw [hk]; exact Bool.false_ne_true)]

theorem slugLoop_accept {store : List Entry} {key : Option String} {slug : String}
    (h : accepts store key slug = true) : slugLoop store key slug = slug := by
  unfold slugLoop
  rw [slugLoopT_accept h]

theorem slugLoop_step {store : List Entry} {key : Option String} {slug : String}
    {e : Entry} (hp : storeProbe store slug = some e)
    (hk : keyMatches e key = false) :
    slugLoop store key slug = slugLoop store key (slug ++ "-2") := by
  unfold slugLoop
  rw [slugLoopT_step hp hk]

theorem slugLoop_induction (store : List Entry) (key : Option String)
    (motive : String → Prop)
    (accept : ∀ slug, accepts store key slug = true → motive slug)
    (step : ∀ slug e, storeProbe store slug = some e → keyMatches e key = false →
      motive (slug ++ "-2") → motive slug) :
    ∀ slug, motive slug := by
  have H : ∀ k slug, maxSlugLen store + 1 - slug.length ≤ k → motive slug := by
    intro k
    induction k with
    | zero =>
      intro slug hk
      apply accept
      unfold accepts
      cases hp : storeProbe store slug with
      | none => rfl
      | some e =>
        have hm := storeProbe_some hp
        have hlen := hm.2 ▸ slugLen_le_maxSlugLen hm.1
        exfalso
        omega
    | succ n ih =>
      intro slug hk
      cases hp : storeProbe store slug with
      | none => exact accept slug (by unfold accepts; rw [hp])
      | some e =>
        cases hkm : keyMatches e key with
        | true =>
          apply accept slug
          unfold accepts
          rw [hp]
          exact hkm
        | false =>
          refine step slug e hp hkm (ih _ ?_)
          have hm := storeProbe_some hp
          have hlen := hm.2 ▸ slugLen_le_maxSlugLen hm.1
          have h2 := append_two_length slug
          omega
  intro slug
  exact H (maxSlugLen store + 1 - slug.length) slug (Nat.le_refl _)

theorem isWordChar_toNat_lt {c : Char} (h : isWordChar c = true) : c.toNat < 128 := by
  simp only [isWordChar, Bool.or_eq_true, Bool.and_eq_true, decide_eq_true_eq,
    beq_iff_eq] at h
  rcases h with ((h | h) | h) | h <;> omega

theorem lowerPy_isWordChar {c : Char} (h : isWordChar c = true) :
    isLowerWordOrHyphen (lowerPy c) = true := by
  have hb : c.toNat < 128 := isWordChar_toNat_lt h
  have key : ∀ n : Nat, n < 128 → isWordChar (Char.ofNat n) = true →
      isLowerWordOrHyphen (lowerPy (Char.ofNat n)) = true := by decide
  have h2 := key c.toNat hb
  rw [Char.ofNat_toNat] at h2
  exact h2 h

theorem mem_subNonWordAux {c : Char} {b : Bool} {l : List Char}
    (h : c ∈ subNonWordAux b l) : isWordChar c = true ∨ c = ' ' := by
  induction l generalizing b with
  | nil => simp [subNonWordAux] at h
  | cons x xs ih =>
    simp only [subNonWordAux] at h
    split at h
    · rcases List.mem_cons.mp h with rfl | h
      · left; assumption
      · exact ih h
    · split at h
      · exact ih h
      · rcases List.mem_cons.mp h with rfl | h
        · right; rfl
        · exact ih h

theorem mem_of_mem_dropWhile {p : Char → Bool} {c : Char} {l : List Char}
    (h : c ∈ l.dropWhile p) : c ∈ l := by
  induction l with
  | nil => simp at h
  | cons x xs ih =>
    rw [List.dropWhile_cons] at h
    split at h
    · exact List.mem_cons_of_mem _ (ih h)
    · exact h

theorem mem_stripPy {c : Char} {l : List Char} (h : c ∈ stripPy l) : c ∈ l := by
  unfold stripPy at h
  have h1 := List.mem_reverse.mp h
  have h2 := mem_of_mem_dropWhile h1
  exact mem_of_mem_dropWhile (List.mem_reverse.mp h2)

theorem mem_splitWsAux {q : Char → Bool} {l : List Char} :
    ∀ {acc : List Char}, (∀ c ∈ l, q c = true ∨ isSpacePy c = true) →
      (∀ c ∈ acc, q c = true) →
      ∀ w ∈ splitWsAux acc l, ∀ c ∈ w, q c = true := by
  induction l with
  | nil =>
    intro acc _ hacc w hw c hc
    simp only [splitWsAux] at hw
    split at hw
    · simp at hw
    · simp only [List.mem_singleton] at hw
      subst hw
      exact hacc c (List.mem_reverse.mp hc)
  | cons x xs ih =>
    intro acc hl hacc w hw c hc
    simp only [splitWsAux] at hw
    split at hw
    · split at hw
      · exact ih (fun d hd => hl d (List.mem_cons_of_mem _ hd))
          (fun d hd => by cases hd) w hw c hc
      · rcases List.mem_cons.mp hw with rfl | hw
        · exact hacc c (List.mem_reverse.mp hc)
        · exact ih (fun d hd => hl d (List.mem_cons_of_mem _ hd))
            (fun d hd => by cases hd) w hw c hc
    · rename_i hns
      have hx : q x = true := by
        rcases hl x (List.mem_cons_self x xs) with h | h
        · exact h
        · exact absurd h (by simpa using hns)
      refine ih (fun d hd => hl d (List.mem_cons_of_mem _ hd)) ?_ w hw c hc
      intro d hd
      rcases List.mem_cons.mp hd with rfl | hd
      · exact hx
      · exact hacc d hd

theorem mem_joinSep {sep : List Char} {ws : List (List Char)} {c : Char}
    (h : c ∈ joinSep sep ws) : c ∈ sep ∨ ∃ w ∈ ws, c ∈ w := by
  induction ws with
  | nil => simp [joinSep] at h
  | cons w ws ih =>
    cases ws with
    | nil =>
      right
      exact ⟨w, List.mem_cons_self _ _, by simpa [joinSep] using h⟩
    | cons w' ws' =>
      simp only [joinSep, List.append_assoc, List.mem_append] at h
      rcases h with h | h | h
      · right; exact ⟨w, List.mem_cons_self _ _, h⟩
      · left; exact h
      · rcases ih h with h | ⟨u, hu, hcu⟩
        · left; exact h
        · right; exact ⟨u, List.mem_cons_of_mem _ hu, hcu⟩

theorem slugify_chars {nfkd : List Char → List Char} {title : String} :
    (slugify nfkd title).data.all isLowerWordOrHyphen = true := by
  rw [List.all_eq_true]
  intro c hc
  have hc' : c ∈ joinSep ['-']
      (splitWs (stripPy (List.map lowerPy (subNonWord (asciiIgnore (nfkd title.data)))))) := hc
  rcases mem_joinSep hc' with h | ⟨w, hw, hcw⟩
  · rcases List.mem_singleton.mp h with rfl
    decide
  · refine mem_splitWsAux (q := isLowerWordOrHyphen) ?_ (fun d hd => by cases hd) w hw c hcw
    intro d hd
    have hd1 := mem_stripPy hd
    rcases List.mem_map.mp hd1 with ⟨u, hu, rfl⟩
    rcases mem_subNonWordAux hu with h | rfl
    · left; exact lowerPy_isWordChar h
    · right; decide

theorem simpleLoop_none {store : List Entry} {slug : String}
    (h : storeProbe store slug = none) : simpleLoop store slug = slug := by
  rw [simpleLoop]
  split
  · rfl
  · rename_i e he
    rw [h] at he
    cases he

theorem simpleLoop_step {store : List Entry} {slug : String} {e : Entry}
    (h : storeProbe store slug = some e) :
    simpleLoop store slug = simpleLoop store (slug ++ "-2") := by
  rw [simpleLoop]
  split
  · rename_i he
    rw [h] at he
    cases he
  · rfl

/-- C4: for every title (and every NFKD normalization), generating a slug
against an existence probe that always reports no entry — the empty store —
returns a non-empty string all of whose characters are lower-case ASCII word
characters or hyphens. -/
theorem generate_alwaysFree_wellFormed (nfkd : List Char → List Char) (title : String) :
    slugLoop [] none (baseSlug nfkd title) ≠ "" ∧
      (slugLoop [] none (baseSlug nfkd title)).data.all isLowerWordOrHyphen = true := by
  have hloop : slugLoop [] none (baseSlug nfkd title) = baseSlug nfkd title :=
    slugLoop_accept rfl
  rw [hloop]
  unfold baseSlug
  split
  · exact ⟨by decide, by decide⟩
  · rename_i hne
    exact ⟨hne, slugify_chars⟩

/-- C5: every title whose normalization pipeline (Unicode decomposition, ASCII
stripping, non-word-run replacement, lower-casing, trimming, whitespace
collapsing) produces the empty string falls back to the literal base slug
`"entry"`, before any collision suffixing. -/
theorem baseSlug_empty_fallback (nfkd : List Char → List Char) (title : String)
    (h : slugify nfkd title = "") : baseSlug nfkd title = "entry" := by
  unfold baseSlug
  rw [if_pos h]

/-- Witness for `baseSlug_empty_fallback`: under the identity normalization
(NFKD fixes pure ASCII), the all-punctuation title `"!!!"` and the empty title
both normalize to the empty string and fall back to `"entry"`. -/
theorem baseSlug_empty_fallback_witness :
    slugify (fun l => l) "!!!" = "" ∧ baseSlug (fun l => l) "!!!" = "entry" ∧
      baseSlug (fun l => l) "" = "entry" :=
  ⟨by decide, baseSlug_empty_fallback (fun l => l) "!!!" (by decide),
    baseSlug_empty_fallback (fun l => l) "" (by decide)⟩

/-- C10: on the create path no key is supplied, so the loop's second
acceptance condition (the found entry's key equals the excluded one) can never
hold, and the loop behaves exactly like the simplified loop that accepts a
candidate precisely when the probe finds no entry. -/
theorem slugLoop_noKey_eq_simpleLoop (store : List Entry) (slug : String) :
    slugLoop store none slug = simpleLoop store slug := by
  refine slugLoop_induction store none
    (fun s => slugLoop store none s = simpleLoop store s) ?_ ?_ slug
  · intro s hs
    have hp : storeProbe store s = none := by
      unfold accepts at hs
      cases hp : storeProbe store s with
      | none => rfl
      | some e =>
        rw [hp] at hs
        simp [keyMatches] at hs
    rw [slugLoop_accept hs, simpleLoop_none hp]
  · intro s e hp hk ih
    rw [slugLoop_step hp hk, simpleLoop_step hp, ih]

/-- C1: the collision loop returns the first candidate in the sequence
`base`, `base-2`, `base-2-2`, … that the probe accepts, i.e. for which it
finds no entry or finds the entry whose key equals the excluded one; every
earlier candidate is rejected. -/
theorem slugLoop_first_accepted (store : List Entry) (key : Option String) (base : String) :
    ∃ n, slugLoop store key base = appendTwos base n ∧
      accepts store key (appendTwos base n) = true ∧
      ((List.range n).all fun m => !accepts store key (appendTwos base m)) = true := by
  refine slugLoop_induction store key
    (fun s => ∃ n, slugLoop store key s = appendTwos s n ∧
      accepts store key (appendTwos s n) = true ∧
      ((List.range n).all fun m => !accepts store key (appendTwos s m)) = true) ?_ ?_ base
  · intro s hs
    exact ⟨0, slugLoop_accept hs, hs, by simp⟩
  · intro s e hp hk ih
    obtain ⟨n, h1, h2, h3⟩ := ih
    refine ⟨n + 1, ?_, ?_, ?_⟩
    · rw [slugLoop_step hp hk]
      exact h1
    · exact h2
    · rw [List.range_succ_eq_map]
      simp only [List.all_cons, List.all_map, Bool.and_eq_true]
      refine ⟨?_, ?_⟩
      · show (!accepts store key (appendTwos s 0)) = true
        simp only [appendTwos, accepts, hp, hk, Bool.not_false]
      · exact h3

/-- C8 counterexample: against an adversarial existence probe that always
reports a conflicting entry, the collision loop never finishes — no amount of
fuel makes it produce a slug — so termination does not hold for every
existence probe. -/
theorem slugLoop_adversarial_diverges :
    ¬ ∃ n s, slugLoopP (fun _ => some e0) none n "entry" = some s := by
  rintro ⟨n, s, hn⟩
  have H : ∀ m slug, slugLoopP (fun _ => some e0) none m slug = none := by
    intro m
    induction m with
    | zero => intro slug; rfl
    | succ k ih =>
      intro slug
      simp [slugLoopP, keyMatches, ih]
  rw [H n "entry"] at hn
  cases hn

/-- C8 amended: over any finite datastore — the probe the code actually
queries — the collision search terminates: some finite fuel suffices, and with
it the fueled loop agrees with the total loop. -/
theorem slugLoop_terminates_on_store (store : List Entry) (key : Option String) (base : String) :
    ∃ n, slugLoopP (storeProbe store) key n base = some (slugLoop store key base) := by
  refine slugLoop_induction store key
    (fun s => ∃ n, slugLoopP (storeProbe store) key n s = some (slugLoop store key s)) ?_ ?_ base
  · intro s hs
    refine ⟨1, ?_⟩
    rw [slugLoop_accept hs]
    unfold accepts at hs
    cases hp : storeProbe store s with
    | none => simp [slugLoopP, hp]
    | some e =>
      rw [hp] at hs
      simp only [] at hs
      simp [slugLoopP, hp, hs]
  · intro s e hp hk ih
    obtain ⟨n, hn⟩ := ih
    refine ⟨n + 1, ?_⟩
    rw [slugLoop_step hp hk]
    simp [slugLoopP, hp, hk, hn]

theorem slugLoopT_trace_reads (store : List Entry) (key : Option String) (slug : String) :
    (slugLoopT store key slug).2.all isRead = true := by
  refine slugLoop_induction store key
    (fun s => (slugLoopT store key s).2.all isRead = true) ?_ ?_ slug
  · intro s hs
    rw [slugLoopT_accept hs]
    rfl
  · intro s e hp hk ih
    rw [slugLoopT_step hp hk]
    simpa [isRead] using ih

theorem findByKey_map_replace {e' : Entry} {store : List Entry}
    (h : ∃ x ∈ store, x.key = e'.key) :
    findByKey (store.map (fun x => if x.key == e'.key then e' else x)) e'.key = some e' := by
  induction store with
  | nil => simp at h
  | cons y ys ih =>
    by_cases hy : y.key = e'.key
    · have hhead : (if (y.key == e'.key) = true then e' else y) = e' := by simp [hy]
      unfold findByKey
      rw [List.map_cons, hhead, List.find?_cons_of_pos _ (by simp)]
    · have hhead : (if (y.key == e'.key) = true then e' else y) = y := by simp [hy]
      rcases h with ⟨x, hx, hk⟩
      rcases List.mem_cons.mp hx with rfl | hx
      · exact absurd hk hy
      · have ih2 := ih ⟨x, hx, hk⟩
        unfold findByKey at ih2 ⊢
        rw [List.map_cons, hhead, List.find?_cons_of_neg _ (by simp [hy])]
        exact ih2

theorem findByKey_storePut_self {store : List Entry} {e' : Entry}
    (h : ∃ x ∈ store, x.key = e'.key) :
    findByKey (storePut store e') e'.key = some e' := by
  have hany : store.any (fun x => x.key == e'.key) = true := by
    rcases h with ⟨x, hx, hk⟩
    exact List.any_eq_true.mpr ⟨x, hx, by simpa using hk⟩
  unfold storePut
  rw [if_pos hany]
  exact findByKey_map_replace h

theorem mem_storePut (store : List Entry) (e : Entry) : e ∈ storePut store e := by
  unfold storePut
  split
  · rename_i hany
    rcases List.any_eq_true.mp hany with ⟨x, hx, hxe⟩
    exact List.mem_of_find?_eq_some
      (@findByKey_map_replace e store ⟨x, hx, by simpa using hxe⟩)
  · simp

theorem filter_write_append {reads : List Op} {x : Op}
    (h : reads.all isRead = true) (hx : isRead x = false) :
    (reads ++ [x]).filter (fun op => !isRead op) = [x] := by
  rw [List.filter_append]
  have h1 : reads.filter (fun op => !isRead op) = [] := by
    rw [List.filter_eq_nil_iff]
    intro a ha
    have := List.all_eq_true.mp h a ha
    simp [this]
  rw [h1]
  simp [hx]


/-- C2: a successful update — `post` with a key naming a stored entry —
preserves that entry's key, author, slug and published timestamp whatever new
title and body are supplied; it rewrites exactly title, body, rendered
markdown and the updated timestamp, and the entry stored under the key
afterwards is the rewritten one. -/
theorem post_update_preserves (md : String → String) (nfkd : List Char → List Char)
    (author : String) (now : Nat) (store : List Entry) (freshKey : String)
    (k : String) (titleArg markdownArg : String) (e : Entry)
    (store' : List Entry) (e' : Entry) (tr : List Op)
    (hf : findByKey store k = some e)
    (h : postT md nfkd author now store freshKey (some k) titleArg markdownArg =
      (Except.ok (store', e'), tr)) :
    e'.key = e.key ∧ e'.author = e.author ∧ e'.slug = e.slug ∧
      e'.published = e.published ∧ e'.title = titleArg ∧ e'.body = markdownArg ∧
      e'.markdown = md markdownArg ∧ e'.updated = now ∧
      findByKey store' k = some e' := by
  have hkey : e.key = k := by simpa using List.find?_some hf
  have hmem : e ∈ store := List.mem_of_find?_eq_some hf
  by_cases ht : titleArg = ""
  · simp [postT, hf, getArg, ht] at h
  · by_cases hm : markdownArg = ""
    · simp [postT, hf, getArg, ht, hm] at h
    · simp only [postT, hf, getArg, if_neg ht, if_neg hm, Prod.mk.injEq,
        Except.ok.injEq] at h
      obtain ⟨⟨h1, h2⟩, h3⟩ := h
      subst h1
      subst h2
      refine ⟨rfl, rfl, rfl, rfl, rfl, rfl, rfl, rfl, ?_⟩
      have hres := @findByKey_storePut_self store
        { e with
          title := titleArg, body := markdownArg,
          markdown := md markdownArg, updated := now } ⟨e, hmem, rfl⟩
      rw [← hkey]
      exact hres

/-- Witness for `post_update_preserves`: updating the stored entry `e0` (key
`"k1"`) with title `"New"` and body `"fresh"` at time 9 yields exactly `e1`,
which keeps `e0`'s key, author, slug and published time. -/
theorem post_update_preserves_witness :
    findByKey [e0] "k1" = some e0 ∧
      (e1.key = e0.key ∧ e1.author = e0.author ∧ e1.slug = e0.slug ∧
        e1.published = e0.published ∧ e1.title = "New" ∧ e1.body = "fresh" ∧
        e1.markdown = mdP "fresh" ∧ e1.updated = 9 ∧
        findByKey [e1] "k1" = some e1) :=
  ⟨rfl, post_update_preserves mdP (fun l => l) "al" 9 [e0] "fk" "k1" "New" "fresh"
    e0 [e1] e1 [Op.readKey "k1", Op.write e1] rfl rfl⟩

/-- C3: after every successful publish, on the create path and on the update
path alike, the written entry's `markdown` field (the rendered HTML) equals
the renderer applied to its current `body`, and that entry is in the
resulting store — the cache is never stale. -/
theorem post_renders_body (md : String → String) (nfkd : List Char → List Char)
    (author : String) (now : Nat) (store : List Entry) (freshKey : String)
    (key : Option String) (titleArg markdownArg : String)
    (store' : List Entry) (e' : Entry) (tr : List Op)
    (h : postT md nfkd author now store freshKey key titleArg markdownArg =
      (Except.ok (store', e'), tr)) :
    e'.markdown = md e'.body ∧ e' ∈ store' := by
  cases key with
  | some k =>
    cases hf : findByKey store k with
    | none => simp [postT, hf] at h
    | some e =>
      by_cases ht : titleArg = ""
      · simp [postT, hf, getArg, ht] at h
      · by_cases hm : markdownArg = ""
        · simp [postT, hf, getArg, ht, hm] at h
        · simp only [postT, hf, getArg, if_neg ht, if_neg hm, Prod.mk.injEq,
            Except.ok.injEq] at h
          obtain ⟨⟨h1, h2⟩, h3⟩ := h
          subst h1
          subst h2
          exact ⟨rfl, mem_storePut _ _⟩
  | none =>
    by_cases ht : titleArg = ""
    · simp [postT, getArg, ht] at h
    · by_cases hm : markdownArg = ""
      · simp [postT, getArg, ht, hm] at h
      · simp only [postT, getArg, if_neg ht, if_neg hm, Prod.mk.injEq,
          Except.ok.injEq] at h
        obtain ⟨⟨h1, h2⟩, h3⟩ := h
        subst h1
        subst h2
        exact ⟨rfl, mem_storePut _ _⟩

/-- Witness for `post_renders_body` at a concrete update call: the rewritten
entry `e1` carries exactly the rendering of its body. -/
theorem post_renders_body_witness : e1.markdown = mdP e1.body ∧ e1 ∈ [e1] :=
  post_renders_body mdP (fun l => l) "al" 9 [e0] "fk" (some "k1") "New" "fresh"
    [e1] e1 [Op.readKey "k1", Op.write e1] rfl

/-- C6: a create call (no key) whose title is empty fails with
`invalidInput`, and its datastore trace is empty — in particular nothing is
written and no entry is persisted. -/
theorem post_create_emptyTitle_fails (md : String → String) (nfkd : List Char → List Char)
    (author : String) (now : Nat) (store : List Entry) (freshKey : String)
    (markdownArg : String) :
    postT md nfkd author now store freshKey none "" markdownArg =
      (Except.error Err.invalidInput, []) := by
  simp [postT, getArg]

/-- C7: an update call whose key names no stored entry fails with `notFound`;
its trace is the single lookup read, so nothing is written or modified. -/
theorem post_update_missingKey_fails (md : String → String) (nfkd : List Char → List Char)
    (author : String) (now : Nat) (store : List Entry) (freshKey : String)
    (k : String) (titleArg markdownArg : String)
    (hf : findByKey store k = none) :
    postT md nfkd author now store freshKey (some k) titleArg markdownArg =
      (Except.error Err.notFound, [Op.readKey k]) := by
  simp [postT, hf]

/-- Witness for `post_update_missingKey_fails`: the empty store holds no entry
with key `"zzz"`, and the update call fails with `notFound` after only the
lookup read. -/
theorem post_update_missingKey_fails_witness :
    findByKey [] "zzz" = none ∧
      postT mdP (fun l => l) "al" 9 [] "fk" (some "zzz") "T" "B" =
        (Except.error Err.notFound, [Op.readKey "zzz"]) :=
  ⟨rfl, post_update_missingKey_fails mdP (fun l => l) "al" 9 [] "fk" "zzz" "T" "B" rfl⟩

/-- C9 amended: every publish call that returns successfully performs exactly
one datastore write — of the returned entry, as its final operation — and
every other operation in its trace is a read. -/
theorem post_single_write (md : String → String) (nfkd : List Char → List Char)
    (author : String) (now : Nat) (store : List Entry) (freshKey : String)
    (key : Option String) (titleArg markdownArg : String)
    (store' : List Entry) (e' : Entry) (tr : List Op)
    (h : postT md nfkd author now store freshKey key titleArg markdownArg =
      (Except.ok (store', e'), tr)) :
    ∃ reads, tr = reads ++ [Op.write e'] ∧ reads.all isRead = true ∧
      tr.filter (fun op => !isRead op) = [Op.write e'] := by
  cases key with
  | some k =>
    cases hf : findByKey store k with
    | none => simp [postT, hf] at h
    | some e =>
      by_cases ht : titleArg = ""
      · simp [postT, hf, getArg, ht] at h
      · by_cases hm : markdownArg = ""
        · simp [postT, hf, getArg, ht, hm] at h
        · simp only [postT, hf, getArg, if_neg ht, if_neg hm, Prod.mk.injEq,
            Except.ok.injEq] at h
          obtain ⟨⟨h1, h2⟩, h3⟩ := h
          subst h2
          subst h3
          exact ⟨[Op.readKey k], rfl, rfl, rfl⟩
  | none =>
    by_cases ht : titleArg = ""
    · simp [postT, getArg, ht] at h
    · by_cases hm : markdownArg = ""
      · simp [postT, getArg, ht, hm] at h
      · simp only [postT, getArg, if_neg ht, if_neg hm, Prod.mk.injEq,
          Except.ok.injEq] at h
        obtain ⟨⟨h1, h2⟩, h3⟩ := h
        subst h2
        subst h3
        refine ⟨(slugLoopT store none (baseSlug nfkd titleArg)).2, rfl,
          slugLoopT_trace_reads _ _ _, ?_⟩
        exact filter_write_append (slugLoopT_trace_reads _ _ _) rfl

/-- Witness for `post_single_write` at a concrete successful update: its trace
is the lookup read followed by the single write. -/
theorem post_single_write_witness :
    ∃ reads, [Op.readKey "k1", Op.write e1] = reads ++ [Op.write e1] ∧
      reads.all isRead = true ∧
      ([Op.readKey "k1", Op.write e1].filter fun op => !isRead op) = [Op.write e1] :=
  post_single_write mdP (fun l => l) "al" 9 [e0] "fk" (some "k1") "New" "fresh"
    [e1] e1 [Op.readKey "k1", Op.write e1] rfl

/-- C9 counterexample: the publish call on the update path with the unused key
`"nope"` against the empty store fails and performs zero datastore writes, so
it is not the case that every publish call performs exactly one write. -/
theorem post_write_count_cex :
    ((postT mdP (fun l => l) "al" 9 [] "fk" (some "nope") "T" "B").2.filter
        (fun op => !isRead op)).length = 0 ∧
      ((postT mdP (fun l => l) "al" 9 [] "fk" (some "nope") "T" "B").2.filter
        (fun op => !isRead op)).length ≠ 1 :=
  ⟨rfl, by decide⟩
